import Mathlib

/-!
Shallow embedding of the YIN pitch-estimation library (`src/lib.rs`).

Modelling conventions:
* The generic float type `F` is modelled by `ℚ` for all finite values produced
  inside the pipeline (the guarded divisions there never divide by zero, so no
  non-finite value can arise before the final frequency conversion).
* The final frequency, and the frequency inputs of the constructor, are
  modelled by `FloatVal`, which carries the two non-finite IEEE values the code
  can actually produce or consume (`+inf` from `x / 0` with `x > 0`, `NaN`
  from `0 / 0` or as a caller-supplied frequency).
* Rust `usize` is `ℕ`; `usize::MAX + 1 = 2 ^ 64`, which matters only in
  `num_traits::ToPrimitive::to_usize`.
* A Rust panic (out-of-bounds index, `unwrap` on `None`, integer division by
  zero) is modelled by `Option.none`; every stage therefore returns an
  `Option`, and indexing uses `List.get?`.
-/

namespace Yin

/-- The possible values of the IEEE float result: a finite value (a rational),
positive infinity, or NaN. Negative infinity cannot arise in this code. -/
inductive FloatVal where
  | finite (q : ℚ)
  | posInf
  | nan
deriving DecidableEq, Repr

/-- Rust `Float::is_infinite` (NaN is not infinite). -/
def FloatVal.is_infinite : FloatVal → Bool
  | .posInf => true
  | _ => false

/-- Truncation toward zero of a rational, as Rust float `.trunc()`. -/
def ratTrunc (q : ℚ) : ℤ :=
  if 0 ≤ q then ⌊q⌋ else ⌈q⌉

/-- Model of `num_traits::ToPrimitive::to_usize` on a float: `Some(trunc)` exactly when
the value lies in the exclusive range `(-1, usize::MAX + 1)`; NaN, infinities,
values ≤ -1 and values ≥ 2^64 give `None`. -/
def toUsize : FloatVal → Option ℕ
  | .nan => none
  | .posInf => none
  | .finite q => if 0 ≤ ratTrunc q ∧ ratTrunc q < 2 ^ 64 then some (ratTrunc q).toNat else none

/-- Rust `usize` division: panics (models as `none`) on a zero divisor. -/
def usizeDiv (a b : ℕ) : Option ℕ :=
  if b = 0 then none else some (a / b)

/-- The estimator configuration struct `Yin<F>` (threshold modelled finite:
only its order comparisons matter inside the pipeline). -/
structure Config where
  threshold : ℚ
  tau_max : ℕ
  tau_min : ℕ
  sample_rate : ℕ
deriving DecidableEq, Repr

/-- Constructor `Yin::init`: `tau_max = sample_rate / freq_min.to_usize().unwrap()` and
`tau_min = sample_rate / freq_max.to_usize().unwrap()`; either `unwrap` on
`None` or the integer division by zero panics (`none`). -/
def init (threshold : ℚ) (freq_min freq_max : FloatVal) (sample_rate : ℕ) : Option Config := do
  let fm ← toUsize freq_min
  let tau_max ← usizeDiv sample_rate fm
  let fx ← toUsize freq_max
  let tau_min ← usizeDiv sample_rate fx
  pure ⟨threshold, tau_max, tau_min, sample_rate⟩

/-- Inner accumulation of `diff_function` for a fixed lag `tau`:
`Σ_{j=0}^{bound-1} (a[j] - a[j+tau])²`, `none` if any index is out of bounds. -/
def innerSum (a : List ℚ) (tau bound : ℕ) : Option ℚ :=
  (List.range bound).foldl
    (fun acc j => do
      let s ← acc
      let x ← a.get? j
      let y ← a.get? (j + tau)
      pure (s + (x - y) * (x - y)))
    (some 0)

/-- One entry of the difference vector: entry `tau` starts at zero and is
accumulated only by the iteration `tau` of the outer loop, which runs for
`1 ≤ tau < eff` with inner bound `a.length - eff` (`eff` is the shadowed
`tau_max = min(len, tau_max)` of the source). -/
def diffEntry (a : List ℚ) (eff tau : ℕ) : Option ℚ :=
  if 1 ≤ tau ∧ tau < eff then innerSum a tau (a.length - eff) else some 0

/-- Option-valued map over a list, propagating the first failure. -/
def mapMOpt (f : α → Option β) : List α → Option (List β)
  | [] => some []
  | x :: xs => do
    let y ← f x
    let ys ← mapMOpt f xs
    pure (y :: ys)

/-- Stage 1, `diff_function`: vector of length `tau_max`, entry `tau` as in the loops
of the source (`vec![0; tau_max]`, then for `tau in 1..min(len, tau_max)`,
for `j in 0..(len - min(len, tau_max))`, add `(a[j] - a[j+tau])²`; entry
`tau` of the vector is written only by iteration `tau` of the outer loop). -/
def diff_function (a : List ℚ) (tau_max : ℕ) : Option (List ℚ) :=
  mapMOpt (diffEntry a (min a.length tau_max)) (List.range tau_max)

/-- The loop body of `cmndf`, carrying the running sum; `index` is the
enumeration index of the current element. -/
def cmndfGo : List ℚ → ℕ → ℚ → List ℚ
  | [], _, _ => []
  | s :: rest, index, running_sum =>
    let rs := running_sum + s
    let v := if rs = 0 then 0 else s * (index : ℚ) / rs
    v :: cmndfGo rest (index + 1) rs

/-- Stage 2, `cmndf`: starts from the singleton `vec![0]` and pushes one normalized
value per element of `raw_diff` from index 1 on (`.skip(1)`). The
`F::from(index).unwrap()` never fails (every `usize` converts to a float). -/
def cmndf (raw_diff : List ℚ) : List ℚ :=
  0 :: cmndfGo (raw_diff.drop 1) 1 0

/-- The inner refinement `while` of `compute_diff_min`, indexed by the loop
variant `k = max_tau - tau` (so the guard `tau + 1 < max_tau` is `2 ≤ k`):
advance `tau` while `tau + 1 < max_tau && diff_fn[tau + 1] < diff_fn[tau]`;
indexing may panic. -/
def refineGo (d : List ℚ) : ℕ → ℕ → Option ℕ
  | 0, tau => some tau
  | 1, tau => some tau
  | k + 2, tau =>
    match d.get? (tau + 1), d.get? tau with
    | some a, some b => if a < b then refineGo d (k + 1) (tau + 1) else some tau
    | _, _ => none

/-- The outer scan `while tau < max_tau` of `compute_diff_min`, indexed by the
loop variant `k = max_tau - tau` (so the guard `tau < max_tau` is `1 ≤ k`). -/
def scanGo (d : List ℚ) (thr : ℚ) : ℕ → ℕ → Option ℕ
  | 0, _ => some 0
  | k + 1, tau =>
    match d.get? tau with
    | some v => if v < thr then refineGo d (k + 1) tau else scanGo d thr k (tau + 1)
    | none => none

/-- Stage 3, `compute_diff_min`: threshold scan from `min_tau`, on success refined to
the following strict local minimum; sentinel `0` when the scan exhausts. -/
def compute_diff_min (diff_fn : List ℚ) (min_tau max_tau : ℕ) (harm_threshold : ℚ) : Option ℕ :=
  scanGo diff_fn harm_threshold (max_tau - min_tau) min_tau

/-- Stage 4, `convert_to_frequency`: float division `sample_rate / sample_period`
(both cast from `usize`, the casts never fail): `+inf` for a zero period with
a positive rate, NaN for `0 / 0`, otherwise the finite quotient. -/
def convert_to_frequency (sample_period sample_rate : ℕ) : FloatVal :=
  if sample_period = 0 then
    if sample_rate = 0 then .nan else .posInf
  else
    .finite ((sample_rate : ℚ) / (sample_period : ℚ))

/-- Pipeline `compute_sample_frequency`: the four stages in sequence. -/
def compute_sample_frequency (audio_sample : List ℚ) (tau_min tau_max sample_rate : ℕ)
    (threshold : ℚ) : Option FloatVal := do
  let diff_fn ← diff_function audio_sample tau_max
  let c := cmndf diff_fn
  let sample_period ← compute_diff_min c tau_min tau_max threshold
  pure (convert_to_frequency sample_period sample_rate)

/-- Wrapper `Yin::estimate_freq`: run the pipeline with the stored configuration and
turn an infinite result into the `UnknownValueError` (modelled `Except.error ()`). -/
def estimate_freq (y : Config) (audio_sample : List ℚ) : Option (Except Unit FloatVal) := do
  let sample_frequency ←
    compute_sample_frequency audio_sample y.tau_min y.tau_max y.sample_rate y.threshold
  pure (if sample_frequency.is_infinite then .error () else .ok sample_frequency)

/-- The difference function as the SPEC (claim C2) words it: entry `τ` with
`1 ≤ τ < effective_max` is `Σ_{j=0}^{effective_max − τ − 1} (x[j] − x[j+τ])²`
(out-of-range reads as 0; they do not occur for these bounds). -/
def diff_function_specC2 (a : List ℚ) (tau_max : ℕ) : List ℚ :=
  (List.range tau_max).map (fun tau =>
    let eff := min a.length tau_max
    if 1 ≤ tau ∧ tau < eff then
      ((List.range (eff - tau)).map (fun j => (a.getD j 0 - a.getD (j + tau) 0) ^ 2)).sum
    else 0)

instance : DecidableEq (Except Unit FloatVal) := fun a b =>
  match a, b with
  | .ok x, .ok y =>
    if h : x = y then isTrue (by rw [h]) else isFalse (fun hc => h (Except.ok.inj hc))
  | .error u, .error v => isTrue (by cases u; cases v; rfl)
  | .ok _, .error _ => isFalse (fun hc => Except.noConfusion hc)
  | .error _, .ok _ => isFalse (fun hc => Except.noConfusion hc)

/-! ### General helper lemmas -/

theorem get?_eq_some_getD : ∀ (l : List ℚ) (i : ℕ), i < l.length →
    l.get? i = some (l.getD i 0) := by
  intro l
  induction l with
  | nil => intro i h; simp at h
  | cons x xs ih =>
    intro i h
    cases i with
    | zero => rfl
    | succ j =>
      simp only [List.length_cons, Nat.succ_lt_succ_iff] at h
      simpa using ih j h

theorem getD_map_range (f : ℕ → ℚ) (n i : ℕ) (h : i < n) :
    ((List.range n).map f).getD i 0 = f i := by
  rw [List.getD_eq_get?, List.get?_map, List.get?_range h]
  rfl

/-! ### `innerSum` and `diff_function` -/

theorem innerSum_eq (a : List ℚ) (tau : ℕ) : ∀ (bound : ℕ),
    (∀ j, j < bound → j + tau < a.length) →
    innerSum a tau bound =
      some (∑ j ∈ Finset.range bound, (a.getD j 0 - a.getD (j + tau) 0) ^ 2) := by
  intro bound
  induction bound with
  | zero => intro _; simp [innerSum]
  | succ b ih =>
    intro h
    have hb : b + tau < a.length := h b (Nat.lt_succ_self b)
    have hb' : b < a.length := lt_of_le_of_lt (Nat.le_add_right b tau) hb
    have ihs := ih (fun j hj => h j (Nat.lt_succ_of_lt hj))
    unfold innerSum at ihs ⊢
    rw [List.range_succ, List.foldl_append, ihs]
    simp only [List.foldl_cons, List.foldl_nil, Option.bind_eq_bind, Option.some_bind,
      get?_eq_some_getD a b hb', get?_eq_some_getD a (b + tau) hb]
    rw [Finset.sum_range_succ]
    congr 1
    ring

theorem mapMOpt_eq_some (f : α → Option β) (g : α → β) :
    ∀ (l : List α), (∀ x ∈ l, f x = some (g x)) → mapMOpt f l = some (l.map g) := by
  intro l
  induction l with
  | nil => intro _; rfl
  | cons x xs ih =>
    intro h
    simp only [mapMOpt, h x (List.mem_cons_self x xs),
      ih (fun y hy => h y (List.mem_cons_of_mem x hy)), Option.bind_eq_bind,
      Option.some_bind, List.map_cons]
    rfl

/-- The entry function of the difference vector, in closed form. -/
def diffEntryVal (a : List ℚ) (tau_max tau : ℕ) : ℚ :=
  if 1 ≤ tau ∧ tau < min a.length tau_max then
    ∑ j ∈ Finset.range (a.length - min a.length tau_max),
      (a.getD j 0 - a.getD (j + tau) 0) ^ 2
  else 0

theorem diff_function_eq (a : List ℚ) (tau_max : ℕ) :
    diff_function a tau_max = some ((List.range tau_max).map (diffEntryVal a tau_max)) := by
  unfold diff_function
  apply mapMOpt_eq_some
  intro tau _
  unfold diffEntry diffEntryVal
  by_cases hc : 1 ≤ tau ∧ tau < min a.length tau_max
  · simp only [hc, if_true]
    apply innerSum_eq
    intro j hj
    have h1 : tau < a.length := lt_of_lt_of_le hc.2 (min_le_left _ _)
    have h2 : min a.length tau_max ≤ a.length := min_le_left _ _
    omega
  · rw [if_neg hc, if_neg hc]

theorem diff_function_getD (a : List ℚ) (tau_max tau : ℕ) (h : tau < tau_max) (l : List ℚ)
    (hl : diff_function a tau_max = some l) : l.getD tau 0 = diffEntryVal a tau_max tau := by
  rw [diff_function_eq] at hl
  cases hl
  exact getD_map_range _ _ _ h

theorem diff_function_length (a : List ℚ) (tau_max : ℕ) (l : List ℚ)
    (hl : diff_function a tau_max = some l) : l.length = tau_max := by
  rw [diff_function_eq] at hl
  cases hl
  simp

/-! ### `cmndf` -/

theorem cmndfGo_length : ∀ (l : List ℚ) (n : ℕ) (s : ℚ), (cmndfGo l n s).length = l.length := by
  intro l
  induction l with
  | nil => intro n s; rfl
  | cons x xs ih => intro n s; simp [cmndfGo, ih]

theorem cmndf_length (l : List ℚ) : (cmndf l).length = 1 + (l.length - 1) := by
  simp only [cmndf, List.length_cons, cmndfGo_length, List.length_drop]
  omega

theorem cmndfGo_getD : ∀ (l : List ℚ) (n : ℕ) (s : ℚ) (m : ℕ), m < l.length →
    (cmndfGo l n s).getD m 0 =
      (if s + ∑ k ∈ Finset.range (m + 1), l.getD k 0 = 0 then 0
       else l.getD m 0 * ((n + m : ℕ) : ℚ) / (s + ∑ k ∈ Finset.range (m + 1), l.getD k 0)) := by
  intro l
  induction l with
  | nil => intro n s m h; simp at h
  | cons x xs ih =>
    intro n s m h
    cases m with
    | zero => simp [cmndfGo]
    | succ m =>
      simp only [List.length_cons, Nat.succ_lt_succ_iff] at h
      have step : ∀ (j : ℕ),
          s + ∑ k ∈ Finset.range (j + 1), (x :: xs).getD k 0
            = (s + x) + ∑ k ∈ Finset.range j, xs.getD k 0 := by
        intro j
        rw [Finset.sum_range_succ']
        simp only [List.getD_cons_succ, List.getD_cons_zero]
        ring
      simp only [cmndfGo, List.getD_cons_succ]
      rw [ih (n + 1) (s + x) m h, step (m + 1)]
      have hn : ((n + 1 + m : ℕ) : ℚ) = ((n + (m + 1) : ℕ) : ℚ) := by
        congr 1
        omega
      rw [hn]

theorem cmndf_getD_zero (l : List ℚ) : (cmndf l).getD 0 0 = 0 := rfl

theorem getD_drop_one (l : List ℚ) (k : ℕ) : (l.drop 1).getD k 0 = l.getD (k + 1) 0 := by
  cases l with
  | nil => simp
  | cons x xs => simp

theorem cmndf_getD (l : List ℚ) (i : ℕ) (h1 : 1 ≤ i) (h2 : i < l.length) :
    (cmndf l).getD i 0 =
      (if ∑ k ∈ Finset.Icc 1 i, l.getD k 0 = 0 then 0
       else l.getD i 0 * (i : ℚ) / ∑ k ∈ Finset.Icc 1 i, l.getD k 0) := by
  obtain ⟨m, rfl⟩ : ∃ m, i = m + 1 := ⟨i - 1, by omega⟩
  have hm : m < (l.drop 1).length := by
    simp only [List.length_drop]
    omega
  have hsum : ∑ k ∈ Finset.range (m + 1), (l.drop 1).getD k 0
      = ∑ k ∈ Finset.Icc 1 (m + 1), l.getD k 0 := by
    rw [← Nat.Ico_succ_right, Finset.sum_Ico_eq_sum_range]
    have h21 : m + 1 + 1 - 1 = m + 1 := by omega
    rw [h21]
    apply Finset.sum_congr rfl
    intro k _
    rw [getD_drop_one]
    congr 1
    omega
  have hidx : ((1 + m : ℕ) : ℚ) = ((m + 1 : ℕ) : ℚ) := by
    congr 1
    omega
  have hval : l.getD (m + 1) 0 = (l.drop 1).getD m 0 := (getD_drop_one l m).symm
  simp only [cmndf, List.getD_cons_succ]
  rw [cmndfGo_getD (l.drop 1) 1 0 m hm, hsum, hidx, hval]
  simp only [zero_add]

theorem cmndfGo_zeros : ∀ (m : ℕ) (n : ℕ),
    cmndfGo (List.replicate m 0) n 0 = List.replicate m 0 := by
  intro m
  induction m with
  | zero => intro n; rfl
  | succ m ih =>
    intro n
    simp only [List.replicate_succ, cmndfGo, add_zero, if_true]
    rw [ih (n + 1)]

theorem cmndf_zeros (n : ℕ) (hn : 1 ≤ n) :
    cmndf (List.replicate n 0) = List.replicate n 0 := by
  obtain ⟨m, rfl⟩ : ∃ m, n = m + 1 := ⟨n - 1, by omega⟩
  simp only [cmndf, List.replicate_succ, List.drop_succ_cons, List.drop_zero]
  rw [cmndfGo_zeros m 1]

/-! ### `compute_diff_min` -/

theorem refineGo_spec (d : List ℚ) : ∀ (k tau : ℕ), tau + k ≤ d.length →
    ∃ r, refineGo d k tau = some r ∧ tau ≤ r ∧ r ≤ tau + (k - 1) ∧
      (∀ i, tau ≤ i → i < r → d.getD (i + 1) 0 < d.getD i 0) ∧
      (r + 1 < tau + k → ¬ d.getD (r + 1) 0 < d.getD r 0) := by
  intro k
  induction k using Nat.strong_induction_on with
  | _ k ih =>
    intro tau hlen
    match k with
    | 0 =>
      exact ⟨tau, rfl, le_refl tau, by omega, fun i h1 h2 => absurd h2 (by omega),
        fun h => absurd h (by omega)⟩
    | 1 =>
      exact ⟨tau, rfl, le_refl tau, by omega, fun i h1 h2 => absurd h2 (by omega),
        fun h => absurd h (by omega)⟩
    | k + 2 =>
      have h1 : tau + 1 < d.length := by omega
      have h0 : tau < d.length := by omega
      have e1 := get?_eq_some_getD d (tau + 1) h1
      have e0 := get?_eq_some_getD d tau h0
      by_cases hlt : d.getD (tau + 1) 0 < d.getD tau 0
      · obtain ⟨r, hr, hr1, hr2, hr3, hr4⟩ :=
          ih (k + 1) (by omega) (tau + 1) (by omega)
        refine ⟨r, ?_, by omega, by omega, ?_, ?_⟩
        · simp only [refineGo, e1, e0, if_pos hlt]
          exact hr
        · intro i hi1 hi2
          rcases Nat.eq_or_lt_of_le hi1 with h | h
          · rw [← h]
            exact hlt
          · exact hr3 i h hi2
        · intro h
          exact hr4 (by omega)
      · refine ⟨tau, ?_, le_refl tau, by omega, fun i hi1 hi2 => absurd hi2 (by omega), ?_⟩
        · simp only [refineGo, e1, e0, if_neg hlt]
        · intro _
          exact hlt

theorem scanGo_eq_zero (d : List ℚ) (thr : ℚ) : ∀ (k tau : ℕ), tau + k ≤ d.length →
    (∀ i, tau ≤ i → i < tau + k → ¬ d.getD i 0 < thr) → scanGo d thr k tau = some 0 := by
  intro k
  induction k with
  | zero => intro tau _ _; rfl
  | succ k ih =>
    intro tau hlen h
    have h0 : tau < d.length := by omega
    have e0 := get?_eq_some_getD d tau h0
    have hn : ¬ d.getD tau 0 < thr := h tau (le_refl tau) (by omega)
    simp only [scanGo, e0, if_neg hn]
    exact ih (tau + 1) (by omega) (fun i hi1 hi2 => h i (by omega) (by omega))

theorem scanGo_found (d : List ℚ) (thr : ℚ) : ∀ (k tau τ₀ : ℕ), tau + k ≤ d.length →
    tau ≤ τ₀ → τ₀ < tau + k → d.getD τ₀ 0 < thr →
    (∀ i, tau ≤ i → i < τ₀ → ¬ d.getD i 0 < thr) →
    scanGo d thr k tau = refineGo d (tau + k - τ₀) τ₀ := by
  intro k
  induction k with
  | zero => intro tau τ₀ _ h1 h2 _ _; omega
  | succ k ih =>
    intro tau τ₀ hlen h1 h2 hthr hbefore
    have h0 : tau < d.length := by omega
    have e0 := get?_eq_some_getD d tau h0
    rcases Nat.eq_or_lt_of_le h1 with heq | hlt
    · subst heq
      simp only [scanGo, e0, if_pos hthr]
      congr 1
      omega
    · have hn : ¬ d.getD tau 0 < thr := hbefore tau (le_refl tau) hlt
      simp only [scanGo, e0, if_neg hn]
      rw [ih (tau + 1) τ₀ (by omega) (by omega) (by omega) hthr
        (fun i hi1 hi2 => hbefore i (by omega) hi2)]
      congr 1
      omega

theorem scanGo_isSome (d : List ℚ) (thr : ℚ) : ∀ (k tau : ℕ), tau + k ≤ d.length →
    ∃ r, scanGo d thr k tau = some r := by
  intro k
  induction k with
  | zero => intro tau _; exact ⟨0, rfl⟩
  | succ k ih =>
    intro tau hlen
    have h0 : tau < d.length := by omega
    have e0 := get?_eq_some_getD d tau h0
    by_cases hlt : d.getD tau 0 < thr
    · obtain ⟨r, hr, _⟩ := refineGo_spec d (k + 1) tau hlen
      exact ⟨r, by simp only [scanGo, e0, if_pos hlt]; exact hr⟩
    · obtain ⟨r, hr⟩ := ih (tau + 1) (by omega)
      exact ⟨r, by simp only [scanGo, e0, if_neg hlt]; exact hr⟩

theorem compute_diff_min_isSome (d : List ℚ) (min_tau max_tau : ℕ) (thr : ℚ)
    (h : max_tau ≤ d.length) : ∃ r, compute_diff_min d min_tau max_tau thr = some r := by
  unfold compute_diff_min
  by_cases hc : min_tau ≤ max_tau
  · exact scanGo_isSome d thr (max_tau - min_tau) min_tau (by omega)
  · have h0 : max_tau - min_tau = 0 := by omega
    rw [h0]
    exact ⟨0, rfl⟩

/-! ### Pipeline plumbing -/

theorem compute_sample_frequency_eq (a : List ℚ) (tau_min tau_max sample_rate : ℕ) (thr : ℚ)
    (dv : List ℚ) (p : ℕ)
    (hd : diff_function a tau_max = some dv)
    (hp : compute_diff_min (cmndf dv) tau_min tau_max thr = some p) :
    compute_sample_frequency a tau_min tau_max sample_rate thr
      = some (convert_to_frequency p sample_rate) := by
  unfold compute_sample_frequency
  rw [hd]
  simp only [Option.bind_eq_bind, Option.some_bind]
  rw [hp]
  rfl

theorem estimate_freq_eq (y : Config) (audio : List ℚ) (f : FloatVal)
    (hf : compute_sample_frequency audio y.tau_min y.tau_max y.sample_rate y.threshold = some f) :
    estimate_freq y audio = some (if f.is_infinite then .error () else .ok f) := by
  unfold estimate_freq
  rw [hf]
  rfl

theorem getD_eq_zero_of_all_zero (a : List ℚ) (h : ∀ x ∈ a, x = 0) : ∀ (i : ℕ),
    a.getD i 0 = 0 := by
  induction a with
  | nil => intro i; simp
  | cons x xs ih =>
    intro i
    cases i with
    | zero => exact h x (List.mem_cons_self x xs)
    | succ j => exact ih (fun y hy => h y (List.mem_cons_of_mem x hy)) j

end Yin

namespace Yin

/-! ### The claims -/

/-- C4: whenever the period search returns the sentinel lag 0 and the sample
rate is positive, `convert_to_frequency` yields positive infinity (a
non-finite value), and `estimate_freq` signals the `UnknownValueError` rather
than returning a finite frequency. -/
theorem C4_sentinel_lag_gives_error (y : Config) (audio : List ℚ) (dv : List ℚ)
    (hrate : 0 < y.sample_rate)
    (hd : diff_function audio y.tau_max = some dv)
    (hp : compute_diff_min (cmndf dv) y.tau_min y.tau_max y.threshold = some 0) :
    convert_to_frequency 0 y.sample_rate = FloatVal.posInf ∧
    (convert_to_frequency 0 y.sample_rate).is_infinite = true ∧
    estimate_freq y audio = some (Except.error ()) := by
  have hconv : convert_to_frequency 0 y.sample_rate = FloatVal.posInf := by
    unfold convert_to_frequency
    rw [if_pos rfl, if_neg (by omega)]
  refine ⟨hconv, by rw [hconv]; rfl, ?_⟩
  have h1 := compute_sample_frequency_eq audio y.tau_min y.tau_max y.sample_rate y.threshold
    dv 0 hd hp
  rw [estimate_freq_eq y audio _ h1, hconv]
  rfl

/-- Witness for C4 at a concrete input: a zero threshold is never strictly
exceeded on the all-zero normalized curve, so the scan returns sentinel 0. -/
theorem C4_witness :
    convert_to_frequency 0 (Config.mk 0 6 2 12).sample_rate = FloatVal.posInf ∧
    (convert_to_frequency 0 (Config.mk 0 6 2 12).sample_rate).is_infinite = true ∧
    estimate_freq (Config.mk 0 6 2 12) [] = some (Except.error ()) :=
  C4_sentinel_lag_gives_error (Config.mk 0 6 2 12) [] [0, 0, 0, 0, 0, 0]
    (by decide) (by decide) (by with_unfolding_all decide)

/-- C7: with a positive sample rate, whenever `estimate_freq` succeeds, the
returned frequency is a finite, strictly positive value. -/
theorem C7_success_is_finite_positive (y : Config) (audio : List ℚ) (f : FloatVal)
    (hrate : 0 < y.sample_rate)
    (hok : estimate_freq y audio = some (Except.ok f)) :
    ∃ q : ℚ, f = FloatVal.finite q ∧ 0 < q := by
  unfold estimate_freq at hok
  simp only [Option.bind_eq_bind, Option.bind_eq_some, Option.pure_def,
    Option.some.injEq] at hok
  obtain ⟨v, hv, hite⟩ := hok
  unfold compute_sample_frequency at hv
  simp only [Option.bind_eq_bind, Option.bind_eq_some, Option.pure_def,
    Option.some.injEq] at hv
  obtain ⟨dv, _, p, _, hconv⟩ := hv
  by_cases hinf : v.is_infinite
  · rw [if_pos hinf] at hite
    exact absurd hite (by simp)
  · rw [if_neg hinf] at hite
    have hvf : v = f := by
      simpa using hite
    subst hvf
    cases hpz : p with
    | zero =>
      exfalso
      rw [hpz] at hconv
      unfold convert_to_frequency at hconv
      rw [if_pos rfl, if_neg (by omega)] at hconv
      rw [← hconv] at hinf
      exact hinf rfl
    | succ m =>
      rw [hpz] at hconv
      unfold convert_to_frequency at hconv
      rw [if_neg (by omega)] at hconv
      refine ⟨(y.sample_rate : ℚ) / ((m + 1 : ℕ) : ℚ), hconv.symm, ?_⟩
      apply div_pos
      · exact_mod_cast hrate
      · exact_mod_cast Nat.succ_pos m

/-- Witness for C7 at a concrete input: the empty buffer with a positive
threshold produces the finite positive frequency 6. -/
theorem C7_witness : ∃ q : ℚ, FloatVal.finite 6 = FloatVal.finite q ∧ 0 < q :=
  C7_success_is_finite_positive (Config.mk 1 6 2 12) [] (FloatVal.finite 6)
    (by decide) (by with_unfolding_all decide)

/-- C8: the four pipeline stages are total for every configuration and every
buffer: `compute_sample_frequency` (and hence `estimate_freq`) never panics —
no out-of-bounds index, no failing unwrap, no unguarded division (`none`
models a panic in this embedding). -/
theorem C8_pipeline_total (audio : List ℚ) (tau_min tau_max sample_rate : ℕ) (threshold : ℚ) :
    (∃ v, compute_sample_frequency audio tau_min tau_max sample_rate threshold = some v) ∧
    (∃ e, estimate_freq (Config.mk threshold tau_max tau_min sample_rate) audio = some e) := by
  have hd := diff_function_eq audio tau_max
  have hlen : ((List.range tau_max).map (diffEntryVal audio tau_max)).length = tau_max := by
    simp
  have hcm : tau_max ≤ (cmndf ((List.range tau_max).map (diffEntryVal audio tau_max))).length := by
    rw [cmndf_length, hlen]
    omega
  obtain ⟨p, hp⟩ := compute_diff_min_isSome
    (cmndf ((List.range tau_max).map (diffEntryVal audio tau_max))) tau_min tau_max threshold hcm
  have h1 := compute_sample_frequency_eq audio tau_min tau_max sample_rate threshold
    _ p hd hp
  refine ⟨⟨_, h1⟩, ⟨_, estimate_freq_eq (Config.mk threshold tau_max tau_min sample_rate) audio _ h1⟩⟩

/-- C9: estimation is a pure, deterministic function of the configuration and
the buffer: the embedding of `estimate_freq` (which takes `&self` and mutates
nothing) is a mathematical function, so two calls on the same configuration
and buffer give the identical result. -/
theorem C9_estimate_deterministic (y : Config) (audio : List ℚ) :
    estimate_freq y audio = estimate_freq y audio := rfl

/-- C5: the period search scans τ from `tau_min` upward strictly below
`tau_max`. If no scanned value lies below the threshold it returns the
sentinel 0; at the first τ₀ below the threshold it walks forward while
`τ+1 < tau_max` and the curve strictly decreases (a plateau stops the
refinement) and returns the stopping point. -/
theorem C5_period_search_spec (d : List ℚ) (min_tau max_tau : ℕ) (thr : ℚ)
    (hlen : max_tau ≤ d.length) :
    ((∀ τ, min_tau ≤ τ → τ < max_tau → ¬ d.getD τ 0 < thr) →
        compute_diff_min d min_tau max_tau thr = some 0) ∧
    (∀ τ₀, min_tau ≤ τ₀ → τ₀ < max_tau → d.getD τ₀ 0 < thr →
        (∀ τ, min_tau ≤ τ → τ < τ₀ → ¬ d.getD τ 0 < thr) →
        ∃ r, compute_diff_min d min_tau max_tau thr = some r ∧
          τ₀ ≤ r ∧ r < max_tau ∧
          (∀ i, τ₀ ≤ i → i < r → d.getD (i + 1) 0 < d.getD i 0) ∧
          (r + 1 < max_tau → ¬ d.getD (r + 1) 0 < d.getD r 0)) := by
  constructor
  · intro h
    by_cases hc : min_tau < max_tau
    · unfold compute_diff_min
      apply scanGo_eq_zero
      · omega
      · intro i h1 h2
        exact h i h1 (by omega)
    · unfold compute_diff_min
      have h0 : max_tau - min_tau = 0 := by omega
      rw [h0]
      rfl
  · intro τ₀ hτ1 hτ2 hτthr hbefore
    unfold compute_diff_min
    rw [scanGo_found d thr (max_tau - min_tau) min_tau τ₀ (by omega) hτ1 (by omega)
      hτthr hbefore]
    have hk : min_tau + (max_tau - min_tau) - τ₀ = max_tau - τ₀ := by omega
    rw [hk]
    obtain ⟨r, hr, hr1, hr2, hr3, hr4⟩ := refineGo_spec d (max_tau - τ₀) τ₀ (by omega)
    exact ⟨r, hr, hr1, by omega, hr3, fun hlt => hr4 (by omega)⟩

/-- Witness for C5 at a concrete input: curve `[0,9,9,3,2,2,9]`, window
`[1,7)`, threshold 4; the first crossing is τ₀ = 3 and the refinement stops
at the plateau entry 4. -/
theorem C5_witness :
    ∃ r, compute_diff_min [0, 9, 9, 3, 2, 2, 9] 1 7 4 = some r ∧
      3 ≤ r ∧ r < 7 ∧
      (∀ i, 3 ≤ i → i < r →
        ([0, 9, 9, 3, 2, 2, 9] : List ℚ).getD (i + 1) 0
          < ([0, 9, 9, 3, 2, 2, 9] : List ℚ).getD i 0) ∧
      (r + 1 < 7 → ¬ ([0, 9, 9, 3, 2, 2, 9] : List ℚ).getD (r + 1) 0
          < ([0, 9, 9, 3, 2, 2, 9] : List ℚ).getD r 0) :=
  (C5_period_search_spec [0, 9, 9, 3, 2, 2, 9] 1 7 4 (by decide)).2 3
    (by decide) (by decide) (by with_unfolding_all decide)
    (by
      intro τ h1 h2
      interval_cases τ <;> with_unfolding_all decide)

/-- C6: for a non-empty difference vector, the cumulative mean normalization
keeps the length, fixes entry 0 at zero, and sets entry `i ≥ 1` to 0 when the
running sum `diff[1] + ... + diff[i]` is exactly zero and to
`diff[i] * i / running_sum` otherwise. -/
theorem C6_cmndf_spec (raw : List ℚ) (h : raw ≠ []) (i : ℕ) (h1 : 1 ≤ i)
    (h2 : i < raw.length) :
    (cmndf raw).length = raw.length ∧ (cmndf raw).getD 0 0 = 0 ∧
    (cmndf raw).getD i 0 =
      (if ∑ k ∈ Finset.Icc 1 i, raw.getD k 0 = 0 then 0
       else raw.getD i 0 * (i : ℚ) / ∑ k ∈ Finset.Icc 1 i, raw.getD k 0) := by
  refine ⟨?_, cmndf_getD_zero raw, cmndf_getD raw i h1 h2⟩
  rw [cmndf_length]
  have hne : raw.length ≠ 0 := by
    intro h0
    exact h (List.eq_nil_of_length_eq_zero h0)
  omega

/-- Witness for C6 at a concrete input: `cmndf [5, 3, 1]` has entry 2 equal
to `1 * 2 / (3 + 1)`. -/
theorem C6_witness :
    (cmndf [5, 3, 1]).length = ([5, 3, 1] : List ℚ).length ∧
    (cmndf [5, 3, 1]).getD 0 0 = 0 ∧
    (cmndf [5, 3, 1]).getD 2 0 =
      (if ∑ k ∈ Finset.Icc 1 2, ([5, 3, 1] : List ℚ).getD k 0 = 0 then 0
       else ([5, 3, 1] : List ℚ).getD 2 0 * ((2 : ℕ) : ℚ)
          / ∑ k ∈ Finset.Icc 1 2, ([5, 3, 1] : List ℚ).getD k 0) :=
  C6_cmndf_spec [5, 3, 1] (by decide) 2 (by decide) (by decide)

/-- C2 counterexample: for the buffer `[1, 0, 0]` and `tau_max = 3`
(`effective_max = 3`), the claimed formula `Σ_{j=0}^{effective_max − τ − 1}
(x[j] − x[j+τ])²` predicts entries `[0, 1, 1]`, but the code's inner loop
bound is `N − effective_max = 0`, so every entry stays zero. -/
theorem C2_counterexample :
    diff_function [1, 0, 0] 3 = some [0, 0, 0] ∧
    diff_function_specC2 [1, 0, 0] 3 = [0, 1, 1] ∧
    diff_function [1, 0, 0] 3 ≠ some (diff_function_specC2 [1, 0, 0] 3) := by
  refine ⟨by decide, by with_unfolding_all decide, by with_unfolding_all decide⟩

/-- C2 amended: the difference function returns a vector of length `tau_max`
whose entry 0 is zero, whose entry at each lag `1 ≤ τ < effective_max` (with
`effective_max = min(N, tau_max)`) is `Σ_{j=0}^{N − effective_max − 1}
(x[j] − x[j+τ])²` (the inner bound is `N − effective_max`, independent of τ,
not `effective_max − τ`), and whose entries at `τ ≥ effective_max` are zero. -/
theorem C2_amended_diff_function (a : List ℚ) (tau_max τ : ℕ) (hτ : τ < tau_max) :
    ∃ l, diff_function a tau_max = some l ∧ l.length = tau_max ∧
      l.getD τ 0 =
        (if 1 ≤ τ ∧ τ < min a.length tau_max then
          ∑ j ∈ Finset.range (a.length - min a.length tau_max),
            (a.getD j 0 - a.getD (j + τ) 0) ^ 2
         else 0) := by
  refine ⟨_, diff_function_eq a tau_max, by simp, ?_⟩
  rw [getD_map_range _ _ _ hτ]
  rfl

/-- Witness for C2 at a concrete input: buffer `[1, 0, 0, 2]`, `tau_max = 3`,
lag 1: the populated entry is the sum over the fixed window `N − eff = 1`. -/
theorem C2_amended_witness :
    ∃ l, diff_function [1, 0, 0, 2] 3 = some l ∧ l.length = 3 ∧
      l.getD 1 0 =
        (if 1 ≤ 1 ∧ 1 < min ([1, 0, 0, 2] : List ℚ).length 3 then
          ∑ j ∈ Finset.range (([1, 0, 0, 2] : List ℚ).length
              - min ([1, 0, 0, 2] : List ℚ).length 3),
            (([1, 0, 0, 2] : List ℚ).getD j 0 - ([1, 0, 0, 2] : List ℚ).getD (j + 1) 0) ^ 2
         else 0) :=
  C2_amended_diff_function [1, 0, 0, 2] 3 1 (by decide)

/-- C1 counterexample: the configuration `{threshold 1/10, tau_max 6,
tau_min 2, sample_rate 12}` has positive tau bounds and a positive sample
rate, yet on the empty buffer `estimate_freq` does NOT signal UnknownPitch:
the all-zero normalized curve lies below the positive threshold at the very
first scanned lag, so the search returns `tau_min = 2` and the call succeeds
with the finite frequency 6. -/
theorem C1_counterexample :
    0 < (Config.mk (1/10) 6 2 12).tau_min ∧
    0 < (Config.mk (1/10) 6 2 12).tau_max ∧
    0 < (Config.mk (1/10) 6 2 12).sample_rate ∧
    estimate_freq (Config.mk (1/10) 6 2 12) [] =
      some (Except.ok (FloatVal.finite 6)) := by
  refine ⟨by decide, by decide, by decide, by with_unfolding_all decide⟩

/-- C1 amended: on an empty or all-zero buffer the pipeline never panics, the
difference vector and the normalized vector are all zeros; when the threshold
is positive and `0 < tau_min < tau_max` the period search crosses the
threshold immediately at `tau_min` (zero is below any positive threshold) and
the wrapper returns the finite frequency `sample_rate / tau_min` — it signals
UnknownPitch only when no scanned value is below the threshold (e.g. a
non-positive threshold or an empty scan window). -/
theorem C1_amended_degenerate_buffer (y : Config) (audio : List ℚ)
    (hmin : 0 < y.tau_min) (hlt : y.tau_min < y.tau_max) (hrate : 0 < y.sample_rate)
    (hthr : 0 < y.threshold) (haudio : ∀ x ∈ audio, x = 0) :
    diff_function audio y.tau_max = some (List.replicate y.tau_max 0) ∧
    cmndf (List.replicate y.tau_max 0) = List.replicate y.tau_max 0 ∧
    compute_diff_min (List.replicate y.tau_max 0) y.tau_min y.tau_max y.threshold
      = some y.tau_min ∧
    estimate_freq y audio =
      some (Except.ok (FloatVal.finite ((y.sample_rate : ℚ) / (y.tau_min : ℚ)))) := by
  have hz : ∀ i, audio.getD i 0 = 0 := getD_eq_zero_of_all_zero audio haudio
  have hdv : (List.range y.tau_max).map (diffEntryVal audio y.tau_max)
      = List.replicate y.tau_max 0 := by
    apply List.eq_replicate.2
    refine ⟨by simp, ?_⟩
    intro x hx
    obtain ⟨τ, hτ, rfl⟩ := List.mem_map.1 hx
    unfold diffEntryVal
    split
    · apply Finset.sum_eq_zero
      intro j _
      rw [hz, hz]
      ring
    · rfl
  have hd : diff_function audio y.tau_max = some (List.replicate y.tau_max 0) := by
    rw [diff_function_eq, hdv]
  have hcm : cmndf (List.replicate y.tau_max 0) = List.replicate y.tau_max 0 :=
    cmndf_zeros y.tau_max (by omega)
  have hzrep : ∀ i, (List.replicate y.tau_max (0 : ℚ)).getD i 0 = 0 :=
    getD_eq_zero_of_all_zero _ (fun x hx => List.eq_of_mem_replicate hx)
  have hlenrep : (List.replicate y.tau_max (0 : ℚ)).length = y.tau_max := by simp
  have hcdm : compute_diff_min (List.replicate y.tau_max 0) y.tau_min y.tau_max y.threshold
      = some y.tau_min := by
    unfold compute_diff_min
    rw [scanGo_found _ _ (y.tau_max - y.tau_min) y.tau_min y.tau_min
      (by rw [hlenrep]; omega) (le_refl _) (by omega)
      (by rw [hzrep]; exact hthr) (fun i h1 h2 => absurd h2 (by omega))]
    obtain ⟨r, hr, hr1, hr2, hr3, hr4⟩ := refineGo_spec (List.replicate y.tau_max 0)
      (y.tau_min + (y.tau_max - y.tau_min) - y.tau_min) y.tau_min (by rw [hlenrep]; omega)
    have hrmin : r = y.tau_min := by
      by_contra hne
      have hstep := hr3 y.tau_min (le_refl _) (by omega)
      rw [hzrep, hzrep] at hstep
      exact lt_irrefl _ hstep
    rw [hr, hrmin]
  refine ⟨hd, hcm, hcdm, ?_⟩
  have h1 := compute_sample_frequency_eq audio y.tau_min y.tau_max y.sample_rate y.threshold
    (List.replicate y.tau_max 0) y.tau_min hd (by rw [hcm]; exact hcdm)
  have hconv : convert_to_frequency y.tau_min y.sample_rate
      = FloatVal.finite ((y.sample_rate : ℚ) / (y.tau_min : ℚ)) := by
    unfold convert_to_frequency
    rw [if_neg (by omega)]
  rw [estimate_freq_eq y audio _ h1, hconv]
  rfl

/-- Witness for the amended C1 at a concrete input: config
`{threshold 1, tau_max 6, tau_min 2, sample_rate 12}` on the all-zero
three-sample buffer. -/
theorem C1_amended_witness :
    diff_function [0, 0, 0] (Config.mk 1 6 2 12).tau_max
      = some (List.replicate (Config.mk 1 6 2 12).tau_max 0) ∧
    cmndf (List.replicate (Config.mk 1 6 2 12).tau_max 0)
      = List.replicate (Config.mk 1 6 2 12).tau_max 0 ∧
    compute_diff_min (List.replicate (Config.mk 1 6 2 12).tau_max 0)
      (Config.mk 1 6 2 12).tau_min (Config.mk 1 6 2 12).tau_max
      (Config.mk 1 6 2 12).threshold = some (Config.mk 1 6 2 12).tau_min ∧
    estimate_freq (Config.mk 1 6 2 12) [0, 0, 0] =
      some (Except.ok (FloatVal.finite (((Config.mk 1 6 2 12).sample_rate : ℚ)
        / ((Config.mk 1 6 2 12).tau_min : ℚ)))) :=
  C1_amended_degenerate_buffer (Config.mk 1 6 2 12) [0, 0, 0]
    (by decide) (by decide) (by decide) (by decide) (by decide)

/-- C3 counterexample: with `freq_min = 5/2`, `freq_max = 5`,
`sample_rate = 10`, the code first truncates the frequency to the integer 2
and stores `tau_max = 10 / 2 = 5`, while the claimed
`floor(sample_rate / freq_min) = floor(10 / (5/2)) = 4`. -/
theorem C3_counterexample :
    (init (1/10) (FloatVal.finite (5/2)) (FloatVal.finite 5) 10).map Config.tau_max
      = some 5 ∧
    ⌊(10 : ℚ) / (5/2)⌋ = 4 ∧ (5 : ℕ) ≠ 4 := by
  refine ⟨by with_unfolding_all decide, by norm_num, by decide⟩

/-- C3 amended: the constructor first truncates each frequency to an integer
(`to_usize`) and then performs truncating natural division of the sample rate
by that integer: `tau_max = sample_rate / trunc(freq_min)` and
`tau_min = sample_rate / trunc(freq_max)` — not `floor(sample_rate / freq)`.
Stated for frequencies whose truncation is a positive integer below 2^64 (all
other inputs panic, see C10). -/
theorem C3_amended_init (threshold freq_min freq_max : ℚ) (sample_rate : ℕ)
    (h1 : 1 ≤ ratTrunc freq_min) (h1b : ratTrunc freq_min < 2 ^ 64)
    (h2 : 1 ≤ ratTrunc freq_max) (h2b : ratTrunc freq_max < 2 ^ 64) :
    init threshold (FloatVal.finite freq_min) (FloatVal.finite freq_max) sample_rate =
      some (Config.mk threshold (sample_rate / (ratTrunc freq_min).toNat)
        (sample_rate / (ratTrunc freq_max).toNat) sample_rate) := by
  have hm : toUsize (FloatVal.finite freq_min) = some (ratTrunc freq_min).toNat := by
    simp only [toUsize]
    rw [if_pos ⟨by omega, h1b⟩]
  have hx : toUsize (FloatVal.finite freq_max) = some (ratTrunc freq_max).toNat := by
    simp only [toUsize]
    rw [if_pos ⟨by omega, h2b⟩]
  have hdm : usizeDiv sample_rate (ratTrunc freq_min).toNat
      = some (sample_rate / (ratTrunc freq_min).toNat) := by
    unfold usizeDiv
    rw [if_neg (by omega)]
  have hdx : usizeDiv sample_rate (ratTrunc freq_max).toNat
      = some (sample_rate / (ratTrunc freq_max).toNat) := by
    unfold usizeDiv
    rw [if_neg (by omega)]
  unfold init
  rw [hm]
  simp only [Option.bind_eq_bind, Option.some_bind]
  rw [hdm]
  simp only [Option.some_bind]
  rw [hx]
  simp only [Option.some_bind]
  rw [hdx]
  rfl

/-- Witness for the amended C3 at a concrete input: `freq_min = 2`,
`freq_max = 5`, `sample_rate = 12` give `tau_max = 6` and `tau_min = 2`. -/
theorem C3_amended_witness :
    init 1 (FloatVal.finite 2) (FloatVal.finite 5) 12 =
      some (Config.mk 1 (12 / (ratTrunc 2).toNat) (12 / (ratTrunc 5).toNat) 12) :=
  C3_amended_init 1 2 5 12 (by with_unfolding_all decide)
    (by with_unfolding_all decide) (by with_unfolding_all decide)
    (by with_unfolding_all decide)

/-- C10: the constructor panics (models as `none`) whenever a frequency
converts to the integer 0 (in particular any `0 < freq < 1`, whose truncation
is 0, triggering `sample_rate / 0`) or its `to_usize` conversion fails (NaN,
or any value ≤ -1); construction succeeds only when both frequencies convert
to positive integers, and then it stores the two truncating divisions. -/
theorem C10_init_validation (threshold : ℚ) (freq_min freq_max : FloatVal)
    (sample_rate : ℕ) :
    (toUsize freq_min = some 0 → init threshold freq_min freq_max sample_rate = none) ∧
    (toUsize freq_min = none → init threshold freq_min freq_max sample_rate = none) ∧
    (toUsize freq_max = some 0 → init threshold freq_min freq_max sample_rate = none) ∧
    (toUsize freq_max = none → init threshold freq_min freq_max sample_rate = none) ∧
    (∀ q : ℚ, 0 < q → q < 1 → toUsize (FloatVal.finite q) = some 0) ∧
    toUsize FloatVal.nan = none ∧
    (∀ q : ℚ, q ≤ -1 → toUsize (FloatVal.finite q) = none) ∧
    (∀ (q : ℚ) (n : ℕ), toUsize (FloatVal.finite q) = some n → ratTrunc q = n) ∧
    (∀ y : Config, init threshold freq_min freq_max sample_rate = some y →
      ∃ a b : ℕ, toUsize freq_min = some a ∧ 0 < a ∧ toUsize freq_max = some b ∧ 0 < b ∧
        y = Config.mk threshold (sample_rate / a) (sample_rate / b) sample_rate) := by
  refine ⟨?_, ?_, ?_, ?_, ?_, rfl, ?_, ?_, ?_⟩
  · intro h
    unfold init
    rw [h]
    simp only [Option.bind_eq_bind, Option.some_bind]
    unfold usizeDiv
    rw [if_pos rfl]
    rfl
  · intro h
    unfold init
    rw [h]
    rfl
  · intro h
    unfold init
    cases hm : toUsize freq_min with
    | none => rfl
    | some a =>
      simp only [Option.bind_eq_bind, Option.some_bind]
      unfold usizeDiv
      by_cases haz : a = 0
      · rw [if_pos haz]
        rfl
      · rw [if_neg haz]
        simp only [Option.some_bind]
        rw [h]
        simp only [Option.some_bind, if_pos rfl]
        rfl
  · intro h
    unfold init
    cases hm : toUsize freq_min with
    | none => rfl
    | some a =>
      simp only [Option.bind_eq_bind, Option.some_bind]
      unfold usizeDiv
      by_cases haz : a = 0
      · rw [if_pos haz]
        rfl
      · rw [if_neg haz]
        simp only [Option.some_bind]
        rw [h]
        rfl
  · intro q h0 h1
    have hge : (0 : ℚ) ≤ q := le_of_lt h0
    have htr : ratTrunc q = 0 := by
      unfold ratTrunc
      rw [if_pos hge]
      exact Int.floor_eq_zero_iff.2 ⟨hge, h1⟩
    simp only [toUsize]
    rw [htr]
    norm_num
  · intro q hq
    have hneg : ¬ (0 : ℚ) ≤ q := by
      intro hc
      linarith
    have hceil : ⌈q⌉ ≤ -1 := Int.ceil_le.2 (by push_cast; linarith)
    have htr : ratTrunc q ≤ -1 := by
      unfold ratTrunc
      rw [if_neg hneg]
      exact hceil
    simp only [toUsize]
    rw [if_neg (by omega)]
  · intro q n h
    simp only [toUsize] at h
    by_cases hc : 0 ≤ ratTrunc q ∧ ratTrunc q < 2 ^ 64
    · rw [if_pos hc] at h
      have := Option.some.inj h
      omega
    · rw [if_neg hc] at h
      exact absurd h (by simp)
  · intro y hy
    unfold init at hy
    cases hm : toUsize freq_min with
    | none =>
      rw [hm] at hy
      exact absurd hy (by simp)
    | some a =>
      rw [hm] at hy
      simp only [Option.bind_eq_bind, Option.some_bind] at hy
      unfold usizeDiv at hy
      by_cases haz : a = 0
      · rw [if_pos haz] at hy
        exact absurd hy (by simp)
      · rw [if_neg haz] at hy
        simp only [Option.some_bind] at hy
        cases hx : toUsize freq_max with
        | none =>
          rw [hx] at hy
          exact absurd hy (by simp)
        | some b =>
          rw [hx] at hy
          simp only [Option.some_bind] at hy
          by_cases hbz : b = 0
          · rw [if_pos hbz] at hy
            exact absurd hy (by simp)
          · rw [if_neg hbz] at hy
            simp only [Option.some_bind, Option.pure_def, Option.some.injEq] at hy
            exact ⟨a, b, rfl, by omega, rfl, by omega, hy.symm⟩

/-- Witness for C10 at concrete inputs: `freq_min = 1/2` truncates to 0 and
construction panics; NaN and `-3/2` fail the unsigned conversion. -/
theorem C10_witness :
    init 1 (FloatVal.finite (1/2)) (FloatVal.finite 5) 10 = none ∧
    toUsize (FloatVal.finite (1/2)) = some 0 ∧
    toUsize FloatVal.nan = none ∧
    toUsize (FloatVal.finite (-3/2)) = none := by
  have h := C10_init_validation 1 (FloatVal.finite (1/2)) (FloatVal.finite 5) 10
  have h5 := h.2.2.2.2.1 (1/2) (by norm_num) (by norm_num)
  exact ⟨h.1 h5, h5, h.2.2.2.2.2.1, h.2.2.2.2.2.2.1 (-3/2) (by norm_num)⟩

end Yin

-- sanity examples (concrete evaluations of the embedding)
example : Yin.diff_function [1, 0, 0] 3 = some [0, 0, 0] := by decide
example : Yin.cmndf [5, 3, 1] = [0, 1, 1/2] := by
  norm_num [Yin.cmndf, Yin.cmndfGo]
example : Yin.compute_diff_min [0, 0, 0, 0, 0, 0] 2 6 (1/10) = some 2 := by
  with_unfolding_all decide
example : Yin.estimate_freq ⟨1/10, 6, 2, 12⟩ [] = some (.ok (.finite 6)) := by
  with_unfolding_all decide
